import Mathlib

/-!
Shallow embedding of the scrim OCR/scoring pipeline of `register/index.js`:
text normalisation (`normalizeForLines`), scoreboard parsing
(`parseScoreboardRows`), team detection (`detectTeamForRow`), the scoring
engine (`placementPoints`, `totalPoints`, `getScrimScoring`), the
merge of automated and manual result rows, leaderboard aggregation, the
`!match done` batch loop and the manual-save endpoint.

Strings are modelled as `List Char`.  JavaScript numbers holding integral
values are modelled as `Int` (or `Nat` for counts and places), and values
that flow through a `Number(...)` coercion are modelled by `JsNum`.
`String.prototype.toUpperCase` is modelled on the ASCII range, which covers
every character class the pipeline inspects.
-/

/-- Character code, used to model JavaScript character-class tests. -/
def cc (c : Char) : Nat := c.toNat

/-- JavaScript's `\s` class: space, tab, LF, CR, VT, FF, NBSP, and the
Unicode space separators recognised by the regex engine. -/
def isJsSpace (c : Char) : Bool :=
  cc c == 32 || cc c == 9 || cc c == 10 || cc c == 13 || cc c == 11 || cc c == 12 ||
  cc c == 0xa0 || cc c == 0x1680 || (0x2000 ≤ cc c && cc c ≤ 0x200a) ||
  cc c == 0x2028 || cc c == 0x2029 || cc c == 0x202f || cc c == 0x205f ||
  cc c == 0x3000 || cc c == 0xfeff

/-- ASCII model of `String.prototype.toUpperCase`, applied characterwise. -/
def jsToUpper (c : Char) : Char :=
  if 97 ≤ cc c ∧ cc c ≤ 122 then Char.ofNat (cc c - 32) else c

/-- `String.prototype.trim`: strip leading and trailing JS whitespace. -/
def trimJs (l : List Char) : List Char :=
  ((l.dropWhile isJsSpace).reverse.dropWhile isJsSpace).reverse

/-- The regex class `[^\S\r\n]`: whitespace other than CR and LF
(`normalizeForLines` collapses runs of these). -/
def isCollWs (c : Char) : Bool :=
  isJsSpace c && cc c != 13 && cc c != 10

/-- One pass of `.replace(/[^\S\r\n]+/g, " ")`: each maximal run of
non-newline whitespace becomes a single space.  `inRun` records whether the
previous character belonged to such a run. -/
def collapseWsAux : Bool → List Char → List Char
  | _, [] => []
  | inRun, c :: rest =>
    if isCollWs c then
      if inRun then collapseWsAux true rest
      else ' ' :: collapseWsAux true rest
    else c :: collapseWsAux false rest

/-- `.replace(/[^\S\r\n]+/g, " ")`. -/
def collapseWs (l : List Char) : List Char := collapseWsAux false l

/-- The regex class `[A-Z0-9\r\n ]` kept by the final substitution of
`normalizeForLines`. -/
def keepChar (c : Char) : Bool :=
  (65 ≤ cc c && cc c ≤ 90) || (48 ≤ cc c && cc c ≤ 57) ||
  cc c == 13 || cc c == 10 || cc c == 32

/-- `normalizeForLines` (register/index.js:123): upper-case, collapse
non-newline whitespace runs to single spaces, then replace every character
outside `[A-Z0-9\r\n ]` with a space. -/
def normalizeForLines (l : List Char) : List Char :=
  (collapseWs (l.map jsToUpper)).map (fun c => if keepChar c then c else ' ')

/-- Convert a string literal to the `List Char` model. -/
def s2l (s : String) : List Char := s.data

/-- A digit `0-9` (`\d`). -/
def isDig (c : Char) : Bool := 48 ≤ cc c && cc c ≤ 57

/-- A regex word character (`\w`): letter, digit or underscore; word
boundaries `\b` separate these from everything else. -/
def isWordChar (c : Char) : Bool :=
  (65 ≤ cc c && cc c ≤ 90) || (97 ≤ cc c && cc c ≤ 122) || isDig c || cc c == 95

/-- Numeric value of a digit character. -/
def digVal (c : Char) : Nat := cc c - 48

/-- `String.prototype.split(/\r?\n/)`: cut at every `\n`, also consuming a
`\r` that immediately precedes it. -/
def splitLinesAux (cur : List Char) : List Char → List (List Char)
  | [] => [cur.reverse]
  | '\r' :: '\n' :: rest => cur.reverse :: splitLinesAux [] rest
  | '\n' :: rest => cur.reverse :: splitLinesAux [] rest
  | c :: rest => splitLinesAux (c :: cur) rest

def splitLines (l : List Char) : List (List Char) := splitLinesAux [] l

/-- `isPlaceLine` (register/index.js:150): the trimmed line must match
`^(?:#\s*)?(\d{1,2})$` and denote an integer in `[1,25]`. -/
def isPlaceLine (line : List Char) : Option Nat :=
  let t := trimJs line
  let t' := match t with
    | '#' :: rest => rest.dropWhile isJsSpace
    | _ => t
  match t' with
  | [d] => if isDig d ∧ 1 ≤ digVal d ∧ digVal d ≤ 25 then some (digVal d) else none
  | [d1, d2] =>
    if isDig d1 ∧ isDig d2 ∧ 1 ≤ 10 * digVal d1 + digVal d2 ∧
        10 * digVal d1 + digVal d2 ≤ 25 then
      some (10 * digVal d1 + digVal d2)
    else none
  | _ => none

/-- Literal-prefix test used to model regex literals. -/
def startsWithLit : List Char → List Char → Bool
  | [], _ => true
  | _ :: _, [] => false
  | p :: ps, c :: cs => p == c && startsWithLit ps cs

/-- Substring containment (`String.prototype.includes`). -/
def containsSub (pat : List Char) : List Char → Bool
  | [] => startsWithLit pat []
  | c :: rest => startsWithLit pat (c :: rest) || containsSub pat rest

/-- Tail of the kill regex after the captured digits: `\s+ELIMINATION(?:S)?\b`. -/
def killTail (v : Nat) (l : List Char) : Option Nat :=
  match l with
  | c :: rest =>
    if isJsSpace c then
      let l2 := (c :: rest).dropWhile isJsSpace
      if startsWithLit (s2l "ELIMINATION") l2 then
        match l2.drop 11 with
        | 'S' :: r => if r.headD ' ' |> isWordChar then none else some v
        | r => if r.headD ' ' |> isWordChar then none else some v
      else none
    else none
  | [] => none

/-- Attempt to match `(\d{1,2})\s+ELIMINATION(?:S)?\b` at the head of `l`
(the `\b` before the digits has been checked by the caller).  `\d{1,2}` is
greedy, backtracking from two digits to one. -/
def killFrom (l : List Char) : Option Nat :=
  match l with
  | d1 :: rest1 =>
    if isDig d1 then
      match rest1 with
      | d2 :: rest2 =>
        if isDig d2 then
          match killTail (10 * digVal d1 + digVal d2) rest2 with
          | some v => some v
          | none => killTail (digVal d1) rest1
        else killTail (digVal d1) rest1
      | [] => none
    else none
  | [] => none

/-- Leftmost match of `/\b(\d{1,2})\s+ELIMINATION(?:S)?\b/` in a line;
`prevWord` tells whether the character before the current position is a
word character (for the leading `\b`). -/
def findKill (prevWord : Bool) : List Char → Option Nat
  | [] => none
  | c :: rest =>
    match if prevWord then none else killFrom (c :: rest) with
    | some v => some v
    | none => findKill (isWordChar c) rest

/-- A parsed scoreboard row: `{ place, players[], kills[] }`. -/
structure SRow where
  place : Nat
  players : List (List Char)
  kills : List Nat
  deriving DecidableEq, Repr

/-- The per-segment classification loop of `parseScoreboardRows`
(register/index.js:172-190), carried out over the segment in order with the
players and kills collected so far. -/
def classifySeg : List (List Char) → List (List Char) → List Nat →
    List (List Char) × List Nat
  | [], players, kills => (players, kills)
  | line :: rest, players, kills =>
    let up := line.map jsToUpper
    match findKill false up with
    | some v => classifySeg rest players (kills ++ [v])
    | none =>
      if containsSub (s2l "PUBG") up || containsSub (s2l "MOBILE") up ||
          containsSub (s2l "MATCH") up || containsSub (s2l "RESULT") up then
        classifySeg rest players kills
      else if up ≠ [] ∧ up.all isDig then classifySeg rest players kills
      else if containsSub (s2l "ELIMINATION") up then classifySeg rest players kills
      else if players.length < 4 then classifySeg rest (players ++ [line]) kills
      else classifySeg rest players kills

/-- The walk over the trimmed non-empty lines (register/index.js:158-194):
on a place marker, the following lines up to the next marker form the
segment; a row is emitted only when it has at least one player or kill.
The walk consumes at least one line per step, so a fuel of the number of
lines always suffices; the fuel only makes the recursion structural. -/
def parseWalkF : Nat → List (List Char) → List SRow
  | 0, _ => []
  | _ + 1, [] => []
  | fuel + 1, line :: rest =>
    match isPlaceLine line with
    | none => parseWalkF fuel rest
    | some place =>
      let seg := rest.takeWhile fun l => (isPlaceLine l).isNone
      let rest' := rest.dropWhile fun l => (isPlaceLine l).isNone
      let pk := classifySeg seg [] []
      if pk.1 = [] ∧ pk.2 = [] then parseWalkF fuel rest'
      else ⟨place, pk.1, pk.2⟩ :: parseWalkF fuel rest'

def parseWalk (l : List (List Char)) : List SRow := parseWalkF l.length l

/-- `parseScoreboardRows` (register/index.js:141): split the OCR text into
trimmed non-empty lines and walk them. -/
def parseScoreboardRows (ocrText : List Char) : List SRow :=
  parseWalk (((splitLines ocrText).map trimJs).filter fun l => l ≠ [])


/-- The separator class `[|._-]` stripped by `normName`. -/
def sepChar (c : Char) : Bool :=
  cc c == 124 || cc c == 46 || cc c == 95 || cc c == 45

/-- `normName` (register/index.js:592): upper-case, remove all whitespace,
remove the separators `| . _ -`. -/
def normName (s : List Char) : List Char :=
  ((s.map jsToUpper).filter fun c => ¬ isJsSpace c).filter fun c => ¬ sepChar c

/-- `hasTag` (register/index.js:599): the normalized tag must be non-empty
and a substring of the normalized player name.  A missing tag behaves as
the empty string (`String(undefined || "")`). -/
def hasTag (playerName : List Char) (tag : Option (List Char)) : Bool :=
  let n := normName playerName
  let t := normName (tag.getD [])
  t ≠ [] && containsSub t n

/-- A team row as consumed by the detector: the detector reads `.tag`
(absent on plain DB rows, hence optional), the scorer reads `.team_tag`. -/
structure DTeam where
  team_tag : List Char
  tag : Option (List Char)
  team_name : List Char
  deriving DecidableEq

/-- Number of candidate names of the row that carry the team's tag. -/
def taggedCount (names : List (List Char)) (t : DTeam) : Nat :=
  names.countP fun p => hasTag p t.tag

/-- `!best || tagged > best.tagged` (register/index.js:613). -/
def beats (best : Option (DTeam × Nat)) (tagged : Nat) : Bool :=
  match best with
  | none => true
  | some b => decide (b.2 < tagged)

/-- The accumulator loop of `detectTeamForRow` (register/index.js:606-615):
`best` is replaced whenever the team qualifies (`minTagged ≤ tagged`) and
`beats` the stored count (ties keep the first-seen team); a team that fails
either test leaves `best` unchanged, so the two nested source conditionals
are one conjunction here. -/
def detectGo (names : List (List Char)) (minTagged : Nat) :
    List DTeam → Option (DTeam × Nat) → Option (DTeam × Nat)
  | [], best => best
  | t :: rest, best =>
    detectGo names minTagged rest
      (if decide (minTagged ≤ taggedCount names t) && beats best (taggedCount names t) then
        some (t, taggedCount names t)
      else best)

/-- `detectTeamForRow` (register/index.js:604). -/
def detectTeamForRow (playerNames : List (List Char)) (teams : List DTeam)
    (minTagged : Nat := 2) : Option DTeam :=
  (detectGo playerNames minTagged teams none).map Prod.fst

/-- The concrete team used by the spec's detector examples. -/
def dsTeam : DTeam := ⟨s2l "DS", some (s2l "DS"), s2l "DarkSide"⟩

/-- Result of evaluating `Number(v)` on a JavaScript value: the value may be
absent (`undefined`, giving NaN), `null` (nullish, but `Number(null) = 0`),
non-numeric (NaN/infinite), or finite with integer truncation `n`. -/
inductive JsNum where
  | undef
  | nul
  | nonNum
  | fin (n : Int)
  deriving DecidableEq

/-- `Number(v) || 0`: a finite value passes through, everything else
(NaN from undefined or garbage, and 0 itself) gives 0. -/
def jsOrZero (v : JsNum) : Int :=
  match v with
  | .fin n => n
  | _ => 0

/-- The nullish-coalescing operator `a ?? b`. -/
def jsCoal (a b : JsNum) : JsNum :=
  match a with
  | .undef => b
  | .nul => b
  | _ => a

/-- The scoring-config object built by `defaultScoring`/`getScrimScoring`:
its own properties are exactly `killPoints`, `p1` … `p8`, `p9plus`. -/
structure Scoring where
  killPoints : Int
  p1 : Int
  p2 : Int
  p3 : Int
  p4 : Int
  p5 : Int
  p6 : Int
  p7 : Int
  p8 : Int
  p9plus : Int
  deriving DecidableEq

/-- `defaultScoring` (register/index.js:514). -/
def defaultScoring : Scoring := ⟨1, 10, 6, 5, 4, 3, 2, 1, 1, 0⟩

/-- JavaScript property access `s[key]` on a scoring object: a string key is
looked up among the object's own property names. -/
def scoringGet (s : Scoring) (key : List Char) : Option Int :=
  if key = s2l "killPoints" then some s.killPoints
  else if key = s2l "p1" then some s.p1
  else if key = s2l "p2" then some s.p2
  else if key = s2l "p3" then some s.p3
  else if key = s2l "p4" then some s.p4
  else if key = s2l "p5" then some s.p5
  else if key = s2l "p6" then some s.p6
  else if key = s2l "p7" then some s.p7
  else if key = s2l "p8" then some s.p8
  else if key = s2l "p9plus" then some s.p9plus
  else none

/-- `placementPoints` (register/index.js:563): `rankMap?.[place] ?? 0`.
The integer `place` is converted to its decimal string, as JavaScript does
for computed property access; the scoring object carries no numeric keys. -/
def placementPoints (place : Int) (rankMap : Scoring) : Int :=
  (scoringGet rankMap (s2l (toString place))).getD 0

/-- `totalPoints` (register/index.js:636):
`placementPoints(place, scoring) + (Number(kills) || 0) * killPoints`.
`Number(scoring?.killPoints) || 0` is the identity on the integer
`killPoints` field. -/
def totalPoints (place : Int) (kills : JsNum) (scoring : Scoring) : Int :=
  placementPoints place scoring + jsOrZero kills * scoring.killPoints

/-- `clampInt` (register/index.js:529): `Number`, finiteness check with
`fallback`, truncate, clamp into `[mn, mx]` (`Number(null) = 0`). -/
def clampInt (v : JsNum) (mn mx fallback : Int) : Int :=
  match v with
  | .fin n => if n < mn then mn else if n > mx then mx else n
  | .nul => if 0 < mn then mn else if 0 > mx then mx else 0
  | _ => fallback

/-- The parsed `scoring_json` object as read by `getScrimScoring`: every
field the loader inspects, each a JavaScript value fed to `Number`
(`placesN` stands for `obj?.places?.["N"]`). -/
structure RawScoring where
  killPoints : JsNum
  kills : JsNum
  kill_points : JsNum
  p1 : JsNum
  p2 : JsNum
  p3 : JsNum
  p4 : JsNum
  p5 : JsNum
  p6 : JsNum
  p7 : JsNum
  p8 : JsNum
  p9plus : JsNum
  places1 : JsNum
  places2 : JsNum
  places3 : JsNum
  places4 : JsNum
  places5 : JsNum
  places6 : JsNum
  places7 : JsNum
  places8 : JsNum
  places9plus : JsNum
  deriving DecidableEq

/-- A raw config none of whose fields are present. -/
def rawEmpty : RawScoring :=
  ⟨.undef, .undef, .undef, .undef, .undef, .undef, .undef, .undef, .undef,
   .undef, .undef, .undef, .undef, .undef, .undef, .undef, .undef, .undef,
   .undef, .undef, .undef⟩

/-- A raw config all of whose fields are present but non-numeric. -/
def rawNonNum : RawScoring :=
  ⟨.nonNum, .nonNum, .nonNum, .nonNum, .nonNum, .nonNum, .nonNum, .nonNum,
   .nonNum, .nonNum, .nonNum, .nonNum, .nonNum, .nonNum, .nonNum, .nonNum,
   .nonNum, .nonNum, .nonNum, .nonNum, .nonNum⟩

/-- `getScrimScoring` (register/index.js:538): `none` stands for an absent,
falsy or unparsable `scoring_json` (the `!raw` early return and the
`catch`); otherwise every field is clamped with the default as fallback. -/
def getScrimScoring (cfg : Option RawScoring) : Scoring :=
  match cfg with
  | none => defaultScoring
  | some obj =>
    { killPoints := clampInt (jsCoal obj.killPoints (jsCoal obj.kills obj.kill_points)) 0 50 defaultScoring.killPoints
      p1 := clampInt (jsCoal obj.p1 obj.places1) 0 200 defaultScoring.p1
      p2 := clampInt (jsCoal obj.p2 obj.places2) 0 200 defaultScoring.p2
      p3 := clampInt (jsCoal obj.p3 obj.places3) 0 200 defaultScoring.p3
      p4 := clampInt (jsCoal obj.p4 obj.places4) 0 200 defaultScoring.p4
      p5 := clampInt (jsCoal obj.p5 obj.places5) 0 200 defaultScoring.p5
      p6 := clampInt (jsCoal obj.p6 obj.places6) 0 200 defaultScoring.p6
      p7 := clampInt (jsCoal obj.p7 obj.places7) 0 200 defaultScoring.p7
      p8 := clampInt (jsCoal obj.p8 obj.places8) 0 200 defaultScoring.p8
      p9plus := clampInt (jsCoal obj.p9plus obj.places9plus) 0 200 defaultScoring.p9plus }

/-- All scoring fields non-negative. -/
abbrev scoringNonneg (s : Scoring) : Prop :=
  0 ≤ s.killPoints ∧ 0 ≤ s.p1 ∧ 0 ≤ s.p2 ∧ 0 ≤ s.p3 ∧ 0 ≤ s.p4 ∧
  0 ≤ s.p5 ∧ 0 ≤ s.p6 ∧ 0 ≤ s.p7 ∧ 0 ≤ s.p8 ∧ 0 ≤ s.p9plus

/-- All scoring fields inside the ranges documented for the loader:
`killPoints ∈ [0,50]`, placement fields in `[0,200]`. -/
abbrev scoringInRange (s : Scoring) : Prop :=
  0 ≤ s.killPoints ∧ s.killPoints ≤ 50 ∧
  0 ≤ s.p1 ∧ s.p1 ≤ 200 ∧ 0 ≤ s.p2 ∧ s.p2 ≤ 200 ∧
  0 ≤ s.p3 ∧ s.p3 ≤ 200 ∧ 0 ≤ s.p4 ∧ s.p4 ≤ 200 ∧
  0 ≤ s.p5 ∧ s.p5 ≤ 200 ∧ 0 ≤ s.p6 ∧ s.p6 ≤ 200 ∧
  0 ≤ s.p7 ∧ s.p7 ≤ 200 ∧ 0 ≤ s.p8 ∧ s.p8 ≤ 200 ∧
  0 ≤ s.p9plus ∧ s.p9plus ≤ 200

/-- A result record row as selected from `scrim_results` /
`scrim_results_manual`. -/
structure RRow where
  scrim_id : Int
  game : Int
  team_tag : List Char
  place : Int
  kills : Int
  points : Int
  deriving DecidableEq

/-- The merge key `` `${r.game}::${(r.team_tag||"").trim().toUpperCase()}` ``
(register/index.js:3520), modelled as the pair it encodes. -/
def keyOf (r : RRow) : Int × List Char :=
  (r.game, (trimJs r.team_tag).map jsToUpper)

/-- Lookup in the `manualMap` built by `manualMap.set(key(r), r)` over the
manual rows in order: the last row with the key wins. -/
def manualMapGet (man : List RRow) (k : Int × List Char) : Option RRow :=
  man.reverse.find? fun r => decide (keyOf r = k)

/-- The first merge loop (register/index.js:3527-3535): every OCR row is
replaced by the manual row at the same key when one exists. -/
def mergeFirstPass (ocr man : List RRow) : List RRow :=
  ocr.map fun r => (manualMapGet man (keyOf r)).getD r

/-- The second merge loop (register/index.js:3536-3541): manual rows whose
key was not seen yet are appended, extending `seen` as it goes. -/
def mergeSecondPass : List RRow → List (Int × List Char) → List RRow
  | [], _ => []
  | r :: rest, seen =>
    if keyOf r ∈ seen then mergeSecondPass rest seen
    else r :: mergeSecondPass rest (keyOf r :: seen)

/-- `mergedRows` (register/index.js:3524-3541): after the first loop `seen`
holds exactly the keys of all OCR rows. -/
def mergedRows (ocr man : List RRow) : List RRow :=
  mergeFirstPass ocr man ++ mergeSecondPass man (ocr.map keyOf)

/-- The spec's merge example: the automated record. -/
def autoDS : RRow := ⟨1, 1, s2l "DS", 3, 2, 7⟩

/-- The spec's merge example: the manual override at the same key. -/
def manDS : RRow := ⟨1, 1, s2l "DS", 1, 0, 10⟩

/-- A registered-team row (`teams` table) as used by the results view. -/
structure TeamReg where
  team_tag : List Char
  team_name : List Char
  slot : Int
  deriving DecidableEq

/-- Per-tag totals accumulated by the `agg` map (register/index.js:3579). -/
structure AggV where
  games : Int
  kills : Int
  placement_points : Int
  kill_points : Int
  points : Int
  deriving DecidableEq

/-- The default object installed on first sight of a tag. -/
def aggDefault : AggV := ⟨0, 0, 0, 0, 0⟩

/-- `Map.set`-with-update on an insertion-ordered association list: an
existing key is updated in place, a new key is appended. -/
def updAssoc {β : Type} (k : List Char) (f : β → β) (d : β) :
    List (List Char × β) → List (List Char × β)
  | [] => [(k, f d)]
  | (k', v) :: rest =>
    if k' = k then (k', f v) :: rest else (k', v) :: updAssoc k f d rest

/-- `Map.get` on the association list. -/
def lookupA {β : Type} (m : List (List Char × β)) (k : List Char) : Option β :=
  (m.find? fun p => decide (p.1 = k)).map Prod.snd

/-- `Set.add` on an insertion-ordered list of games. -/
def insertGame (g : Int) (s : List Int) : List Int :=
  if g ∈ s then s else s ++ [g]

/-- One iteration of the aggregation loop (register/index.js:3568-3589):
rows with an empty trimmed tag are skipped; otherwise the tag's totals and
its set of games are updated. -/
def aggStep (scoring : Scoring)
    (st : List (List Char × AggV) × List (List Char × List Int)) (r : RRow) :
    List (List Char × AggV) × List (List Char × List Int) :=
  let tag := trimJs r.team_tag
  if tag = [] then st
  else
    let placePts := placementPoints r.place scoring
    let killPts := r.kills * scoring.killPoints
    let totalPts := placePts + killPts
    (updAssoc tag
      (fun a =>
        { a with
          kills := a.kills + r.kills
          placement_points := a.placement_points + placePts
          kill_points := a.kill_points + killPts
          points := a.points + totalPts })
      aggDefault st.1,
     updAssoc tag (insertGame r.game) [] st.2)

/-- The `agg` and `gamesByTag` maps after the aggregation loop. -/
def aggregate (scoring : Scoring) (rows : List RRow) :
    List (List Char × AggV) × List (List Char × List Int) :=
  rows.foldl (aggStep scoring) ([], [])

/-- The games fix-up loop (register/index.js:3590-3592): each tag's `games`
becomes the size of its set of distinct games. -/
def aggFinal (scoring : Scoring) (rows : List RRow) : List (List Char × AggV) :=
  (aggregate scoring rows).1.map fun p =>
    (p.1, { p.2 with
            games := (((lookupA (aggregate scoring rows).2 p.1).getD []).length : Int) })

/-- `tagToTeam.has(tag)` (register/index.js:3597-3601): some registered team
has this non-empty trimmed tag. -/
def regHas (teams : List TeamReg) (tag : List Char) : Bool :=
  teams.any fun t => decide (trimJs t.team_tag ≠ [] ∧ trimJs t.team_tag = tag)

/-- One leaderboard row; `slot` is `none` for the synthetic unregistered
entries (the source uses the empty string there). -/
structure LBEntry where
  slot : Option Int
  team_tag : List Char
  team_name : List Char
  games : Int
  placement_points : Int
  kills : Int
  kill_points : Int
  points : Int
  deriving DecidableEq

def notRegisteredName : List Char := s2l "(not registered)"

/-- The entry built for a registered team (register/index.js:3604-3617):
aggregated totals when the tag has any, zeros otherwise. -/
def entryForTeam (agg : List (List Char × AggV)) (t : TeamReg) : LBEntry :=
  match lookupA agg (trimJs t.team_tag) with
  | some a => ⟨some t.slot, trimJs t.team_tag, t.team_name,
      a.games, a.placement_points, a.kills, a.kill_points, a.points⟩
  | none => ⟨some t.slot, trimJs t.team_tag, t.team_name, 0, 0, 0, 0, 0⟩

/-- The synthetic entries for aggregated tags with no registered team
(register/index.js:3619-3633). -/
def unregEntries (teams : List TeamReg) (agg : List (List Char × AggV)) :
    List LBEntry :=
  (agg.filter fun p => !regHas teams p.1).map fun p =>
    ⟨none, p.1, notRegisteredName,
      p.2.games, p.2.placement_points, p.2.kills, p.2.kill_points, p.2.points⟩

/-- `x.slot || 9999`: a missing (empty-string) or zero slot counts as 9999. -/
def slotVal (e : LBEntry) : Int :=
  match e.slot with
  | none => 9999
  | some s => if s = 0 then 9999 else s

/-- The sort comparator (register/index.js:3635):
`(y.points - x.points) || (y.kills - x.kills) || (slot x - slot y)`. -/
def lbCmp (x y : LBEntry) : Int :=
  if y.points - x.points ≠ 0 then y.points - x.points
  else if y.kills - x.kills ≠ 0 then y.kills - x.kills
  else slotVal x - slotVal y

/-- `x` may precede `y` under the comparator. -/
def lbOrder (x y : LBEntry) : Prop := lbCmp x y ≤ 0

instance : DecidableRel lbOrder := fun x y => Int.decLe _ _

/-- The leaderboard of the results view (register/index.js:3603-3635): one
entry per registered team, the synthetic unregistered entries, sorted by
the comparator. -/
def buildLeaderboard (scoring : Scoring) (merged : List RRow)
    (teams : List TeamReg) : List LBEntry :=
  List.insertionSort lbOrder
    (teams.map (entryForTeam (aggFinal scoring merged)) ++
     unregEntries teams (aggFinal scoring merged))

/-- Example teams for the leaderboard witness. -/
def tA : TeamReg := ⟨s2l "A", s2l "Alpha", 1⟩

def tB : TeamReg := ⟨s2l "B", s2l "Bravo", 2⟩

def tC : TeamReg := ⟨s2l "C", s2l "Charlie", 3⟩

/-- Example merged row: team A, game 1. -/
def rowA : RRow := ⟨1, 1, s2l "A", 1, 2, 4⟩

/-- `scoreRow` (register/index.js:619, the later definition, which under
JavaScript function hoisting replaces the earlier one at line 567): detect
the team with threshold 2, sum the kills, score with `placementPoints` and
`killPoints`. -/
def scoreRow (scrimId game : Int) (row : SRow) (teams : List DTeam)
    (scoring : Scoring) : Option RRow :=
  match detectTeamForRow row.players teams 2 with
  | none => none
  | some team =>
    some ⟨scrimId, game, team.team_tag, (row.place : Int),
      ((row.kills.foldl (· + ·) 0 : Nat) : Int),
      placementPoints (row.place : Int) scoring +
        ((row.kills.foldl (· + ·) 0 : Nat) : Int) * scoring.killPoints⟩

/-- Modelled from the spec: `buildRowsFromOCR` is called by the
`!match done` handler (register/index.js:4602) but defined nowhere in the
repository; the call-site comment requires `[{ place, players[], kills[] }]`
and spec §4.2 gives the parser contract, which `parseScoreboardRows`
implements. -/
def buildRowsFromOCR (text : List Char) : List SRow := parseScoreboardRows text

/-- Modelled from the spec: `getRankPointsForScrim` (register/index.js:4595)
is defined nowhere in the repository; spec §4.4/§6 say the per-scrim scoring
config is loaded from the scrim settings, which `getScrimScoring`
implements. -/
def getRankPointsForScrim (cfg : Option RawScoring) : Scoring :=
  getScrimScoring cfg

/-- Rows written for one successfully OCRed screenshot
(register/index.js:4604-4623): one `saveResult` upsert and one `saved++`
per parsed row the scorer accepts. -/
def savedRowsForText (scrimId game : Int) (teams : List DTeam)
    (scoring : Scoring) (text : List Char) : Nat :=
  (buildRowsFromOCR text).countP fun row =>
    (scoreRow scrimId game row teams scoring).isSome

/-- The `!match done` image loop (register/index.js:4600-4624) with the
handler's exception flow: each element is the outcome of
`await ocrImageFromUrl(url)`.  There is no try/catch inside the loop, so a
rejected OCR call propagates to the handler-level catch
(register/index.js:4645): the loop stops, the remaining images are never
processed, and no row count is reported (`Except.error`); only an
error-free batch reaches the count reply (`Except.ok`). -/
def matchDoneLoop (scrimId game : Int) (teams : List DTeam)
    (scoring : Scoring) : List (Except Nat (List Char)) → Nat → Except Nat Nat
  | [], saved => .ok saved
  | .error e :: _, _ => .error e
  | .ok text :: rest, saved =>
    matchDoneLoop scrimId game teams scoring rest
      (saved + savedRowsForText scrimId game teams scoring text)

/-- A good screenshot text for the batch counterexample: two DS-tagged
names make the detector accept the row. -/
def goodShot : List Char := s2l "1\nDS Alice\nDS Bob\n3 ELIMINATIONS"

/-- The trimmed non-empty registered tags (`validTags`,
register/index.js:3929). -/
def validTagsOf (teams : List TeamReg) : List (List Char) :=
  (teams.map fun t => trimJs t.team_tag).filter fun tag => tag ≠ []

/-- The insert loop of the manual-save endpoint
(register/index.js:3937-3946): for each place 1–20 the submitted tag is
trimmed; an empty or unregistered tag produces no row; kills are clamped at
0 after coercion and the points computed with the scoring engine. -/
def manualSaveRows (scrimId gameIdx : Int) (teams : List TeamReg)
    (scoring : Scoring) (teamField : Nat → Option (List Char))
    (killsField : Nat → JsNum) : List RRow :=
  (List.range' 1 20).filterMap fun place =>
    if trimJs ((teamField place).getD []) = [] then none
    else if trimJs ((teamField place).getD []) ∉ validTagsOf teams then none
    else
      some ⟨scrimId, gameIdx, trimJs ((teamField place).getD []), (place : Int),
        max 0 (jsOrZero (killsField place)),
        placementPoints (place : Int) scoring +
          max 0 (jsOrZero (killsField place)) * scoring.killPoints⟩

/-- `saveManualResult`'s `ON CONFLICT (scrim_id, game, team_tag) DO UPDATE`
(register/index.js:814): an existing row with the key is overwritten in
place, otherwise the row is appended. -/
def upsertManual (rows : List RRow) (r : RRow) : List RRow :=
  if rows.any fun x =>
      decide ((x.scrim_id, x.game, x.team_tag) = (r.scrim_id, r.game, r.team_tag)) then
    rows.map fun x =>
      if (x.scrim_id, x.game, x.team_tag) = (r.scrim_id, r.game, r.team_tag) then r
      else x
  else rows ++ [r]

/-- The whole manual-save endpoint effect on the `scrim_results_manual`
table (register/index.js:3920-3949): `clearManualGame` deletes this game's
rows, then the new rows are upserted. -/
def saveGameManual (old : List RRow) (scrimId gameIdx : Int)
    (teams : List TeamReg) (scoring : Scoring)
    (teamField : Nat → Option (List Char)) (killsField : Nat → JsNum) :
    List RRow :=
  (manualSaveRows scrimId gameIdx teams scoring teamField killsField).foldl
    upsertManual
    (old.filter fun r => !decide (r.scrim_id = scrimId ∧ r.game = gameIdx))

/-- Submitted form tags for the manual-save witness: place 1 gets the
registered tag `B`, place 2 an unregistered tag `ZZ`. -/
def exTeamField (place : Nat) : Option (List Char) :=
  if place = 1 then some (s2l "B") else if place = 2 then some (s2l "ZZ") else none

-- ## Theorems

theorem keepChar_space : keepChar ' ' = true := by decide

theorem keepChar_of_mem_norm {c : Char} {x : List Char}
    (h : c ∈ normalizeForLines x) : keepChar c = true := by
  unfold normalizeForLines at h
  rcases List.mem_map.1 h with ⟨a, _, ha⟩
  by_cases hk : keepChar a = true
  · rw [if_pos hk] at ha; exact ha ▸ hk
  · rw [if_neg hk] at ha; exact ha ▸ keepChar_space

theorem jsToUpper_of_keep {c : Char} (h : keepChar c = true) : jsToUpper c = c := by
  unfold jsToUpper
  have : ¬ (97 ≤ cc c ∧ cc c ≤ 122) := by
    simp only [keepChar, Bool.or_eq_true, Bool.and_eq_true, decide_eq_true_eq,
      beq_iff_eq] at h
    omega
  simp [this]

theorem mem_collapseWsAux {c : Char} :
    ∀ (b : Bool) (l : List Char), c ∈ collapseWsAux b l → c = ' ' ∨ c ∈ l := by
  intro b l
  induction l generalizing b with
  | nil => simp [collapseWsAux]
  | cons d rest ih =>
    intro h
    unfold collapseWsAux at h
    by_cases hd : isCollWs d = true
    · simp only [hd, if_true] at h
      by_cases hb : b
      · rcases ih true (by simpa [hb] using h) with h' | h'
        · exact Or.inl h'
        · exact Or.inr (List.mem_cons_of_mem _ h')
      · simp only [hb, if_false] at h
        rcases List.mem_cons.1 h with h' | h'
        · exact Or.inl h'
        · rcases ih true h' with h'' | h''
          · exact Or.inl h''
          · exact Or.inr (List.mem_cons_of_mem _ h'')
    · simp only [hd, if_false] at h
      rcases List.mem_cons.1 h with h' | h'
      · exact Or.inr (h' ▸ List.mem_cons_self d rest)
      · rcases ih false h' with h'' | h''
        · exact Or.inl h''
        · exact Or.inr (List.mem_cons_of_mem _ h'')

theorem map_id_of_forall {f : Char → Char} {l : List Char}
    (h : ∀ c ∈ l, f c = c) : l.map f = l := by
  induction l with
  | nil => rfl
  | cons c rest ih =>
    simp only [List.map_cons, h c (List.mem_cons_self c rest)]
    rw [ih fun d hd => h d (List.mem_cons_of_mem c hd)]

/-- C8 counterexample: the claimed idempotence fails on the input `".."`.
`normalizeForLines ".."` replaces each dot with a space producing two
adjacent spaces, which a second application collapses into one. -/
theorem normalizeForLines_not_idempotent :
    ¬ normalizeForLines (normalizeForLines (s2l "..")) = normalizeForLines (s2l "..") := by
  decide

/-- C8 (amended): `normalizeForLines` is not idempotent; a second
application equals exactly one extra whitespace-collapse pass over the first
result, because the symbol-to-space substitution runs after the
whitespace-collapse and can create new runs of adjacent spaces. -/
theorem normalizeForLines_twice (x : List Char) :
    normalizeForLines (normalizeForLines x) = collapseWs (normalizeForLines x) := by
  have hk : ∀ c ∈ normalizeForLines x, keepChar c = true :=
    fun c hc => keepChar_of_mem_norm hc
  have h1 : (normalizeForLines x).map jsToUpper = normalizeForLines x :=
    map_id_of_forall fun c hc => jsToUpper_of_keep (hk c hc)
  have h2 : ∀ c ∈ collapseWs (normalizeForLines x), keepChar c = true := by
    intro c hc
    rcases mem_collapseWsAux false _ hc with h | h
    · simp [h, keepChar_space]
    · exact hk c h
  show (collapseWs ((normalizeForLines x).map jsToUpper)).map
      (fun c => if keepChar c then c else ' ') = collapseWs (normalizeForLines x)
  rw [h1]
  exact map_id_of_forall fun c hc => by simp [h2 c hc]

/-- C5: on the OCR text `"1\nAlice\n2\nBob\n3 ELIMINATIONS"` the parser
segments the lines at the place markers `1` and `2` and yields exactly two
rows: place 1 with single candidate name `Alice` and no kills, and place 2
with single candidate name `Bob` and kill list `[3]`. -/
theorem parseScoreboardRows_example :
    parseScoreboardRows (s2l "1\nAlice\n2\nBob\n3 ELIMINATIONS") =
      [⟨1, [s2l "Alice"], []⟩, ⟨2, [s2l "Bob"], [3]⟩] := by
  decide


theorem detectGo_isSome (names : List (List Char)) (m : Nat) :
    ∀ (l : List DTeam) (b : Option (DTeam × Nat)),
      b.isSome = true → (detectGo names m l b).isSome = true := by
  intro l
  induction l with
  | nil => intro b hb; exact hb
  | cons t rest ih =>
    intro b hb
    unfold detectGo
    by_cases hc : (decide (m ≤ taggedCount names t) && beats b (taggedCount names t)) = true
    · rw [if_pos hc]; exact ih _ rfl
    · rw [if_neg hc]; exact ih _ hb

theorem detectGo_none_iff (names : List (List Char)) (m : Nat) :
    ∀ l : List DTeam,
      detectGo names m l none = none ↔ ∀ t ∈ l, taggedCount names t < m := by
  intro l
  induction l with
  | nil => simp [detectGo]
  | cons t rest ih =>
    unfold detectGo
    by_cases h : m ≤ taggedCount names t
    · have hc : (decide (m ≤ taggedCount names t) && beats none (taggedCount names t)) = true := by
        simp [beats, h]
      rw [if_pos hc]
      constructor
      · intro hgo
        have hs := detectGo_isSome names m rest (some (t, taggedCount names t)) rfl
        rw [hgo] at hs
        exact absurd hs (by simp)
      · intro hall
        exact absurd (hall t (List.mem_cons_self t rest)) (by omega)
    · have hc : ¬ ((decide (m ≤ taggedCount names t) && beats none (taggedCount names t)) = true) := by
        simp [beats, h]
      rw [if_neg hc, ih]
      constructor
      · intro hall u hu
        rcases List.mem_cons.1 hu with rfl | hu'
        · omega
        · exact hall u hu'
      · intro hall u hu
        exact hall u (List.mem_cons_of_mem t hu)

theorem detectGo_char (names : List (List Char)) (m : Nat) :
    ∀ (l : List DTeam) (b : Option (DTeam × Nat)) (res : DTeam × Nat),
      detectGo names m l b = some res →
      (b = some res ∧
        ∀ t ∈ l, ¬ (m ≤ taggedCount names t ∧ res.2 < taggedCount names t)) ∨
      (∃ l₁ l₂, l = l₁ ++ res.1 :: l₂ ∧ res.2 = taggedCount names res.1 ∧
        m ≤ res.2 ∧ (∀ p, b = some p → p.2 < res.2) ∧
        (∀ u ∈ l₁, taggedCount names u < res.2) ∧
        (∀ u ∈ l₂, ¬ (m ≤ taggedCount names u ∧ res.2 < taggedCount names u))) := by
  intro l
  induction l with
  | nil =>
    intro b res h
    exact Or.inl ⟨h, by simp⟩
  | cons t rest ih =>
    intro b res h
    unfold detectGo at h
    by_cases hupd : (decide (m ≤ taggedCount names t) && beats b (taggedCount names t)) = true
    · rw [if_pos hupd] at h
      have hq : m ≤ taggedCount names t := by
        rcases Bool.and_eq_true_iff.1 hupd with ⟨h1, _⟩
        exact of_decide_eq_true h1
      have hbeat : ∀ p, b = some p → p.2 < taggedCount names t := by
        intro p hp
        rcases Bool.and_eq_true_iff.1 hupd with ⟨_, h2⟩
        rw [hp] at h2
        exact of_decide_eq_true h2
      rcases ih (some (t, taggedCount names t)) res h with ⟨hres, hall⟩ | hB
      · have hres' : res = (t, taggedCount names t) := (Option.some_inj.1 hres).symm
        subst hres'
        refine Or.inr ⟨[], rest, by simp, by simp, by simpa using hq, ?_, by simp, hall⟩
        intro p hp
        have := hbeat p hp
        simpa using this
      · rcases hB with ⟨l₁, l₂, hsplit, hcnt, hm, hacc, hstrict, hrest⟩
        have hta : taggedCount names t < res.2 := hacc (t, taggedCount names t) rfl
        refine Or.inr ⟨t :: l₁, l₂, by simp [hsplit], hcnt, hm, ?_, ?_, hrest⟩
        · intro p hp
          have := hbeat p hp
          omega
        · intro u hu
          rcases List.mem_cons.1 hu with rfl | hu'
          · exact hta
          · exact hstrict u hu'
    · rw [if_neg hupd] at h
      have hnot : ¬ (m ≤ taggedCount names t ∧
          ∀ p, b = some p → p.2 < taggedCount names t) := by
        intro hand
        apply hupd
        rw [Bool.and_eq_true_iff]
        refine ⟨decide_eq_true hand.1, ?_⟩
        cases b with
        | none => rfl
        | some bb => exact decide_eq_true (hand.2 bb rfl)
      rcases ih b res h with ⟨hres, hall⟩ | hB
      · refine Or.inl ⟨hres, ?_⟩
        intro u hu
        rcases List.mem_cons.1 hu with rfl | hu'
        · intro hand
          apply hnot
          refine ⟨hand.1, ?_⟩
          intro p hp
          rw [hp] at hres
          rw [Option.some_inj.1 hres]
          exact hand.2
        · exact hall u hu'
      · rcases hB with ⟨l₁, l₂, hsplit, hcnt, hm, hacc, hstrict, hrest⟩
        refine Or.inr ⟨t :: l₁, l₂, by simp [hsplit], hcnt, hm, hacc, ?_, hrest⟩
        intro u hu
        rcases List.mem_cons.1 hu with rfl | hu'
        · by_cases hq : m ≤ taggedCount names u
          · cases b with
            | none =>
              refine absurd ⟨hq, ?_⟩ hnot
              intro p hp
              exact Option.noConfusion hp
            | some bb =>
              by_cases hbb : bb.2 < taggedCount names u
              · refine absurd ⟨hq, ?_⟩ hnot
                intro p hp
                rw [← Option.some_inj.1 hp]
                exact hbb
              · have := hacc bb rfl
                omega
          · omega
        · exact hstrict u hu'

/-- C6: the detector counts, per team, how many candidate names contain the
team's normalized tag; it returns `none` exactly when no team's count
reaches `minTagged`, and otherwise returns a qualifying team whose count is
maximal over the roster and strictly exceeds the count of every team listed
before it (ties go to the first-seen team). -/
theorem detectTeamForRow_spec (names : List (List Char)) (teams : List DTeam) (m : Nat) :
    (detectTeamForRow names teams m = none ↔ ∀ t ∈ teams, taggedCount names t < m) ∧
    (∀ r, detectTeamForRow names teams m = some r →
      ∃ l₁ l₂, teams = l₁ ++ r :: l₂ ∧ m ≤ taggedCount names r ∧
        (∀ u ∈ l₁, taggedCount names u < taggedCount names r) ∧
        (∀ u ∈ teams, taggedCount names u ≤ taggedCount names r)) := by
  constructor
  · rw [detectTeamForRow, Option.map_eq_none']
    exact detectGo_none_iff names m teams
  · intro r hr
    rw [detectTeamForRow] at hr
    rcases Option.map_eq_some'.1 hr with ⟨res, hres, hfst⟩
    rcases detectGo_char names m teams none res hres with ⟨habs, _⟩ | hB
    · exact absurd habs (by simp)
    · rcases hB with ⟨l₁, l₂, hsplit, hcnt, hm, _, hstrict, hrest⟩
      subst hfst
      refine ⟨l₁, l₂, hsplit, by omega, fun u hu => by have := hstrict u hu; omega, ?_⟩
      intro u hu
      rw [hsplit] at hu
      rcases List.mem_append.1 hu with hu' | hu'
      · have := hstrict u hu'
        omega
      · rcases List.mem_cons.1 hu' with rfl | hu''
        · omega
        · have := hrest u hu''
          omega

/-- Witness for C6 at the spec's concrete inputs: `["DS Alice","DS Bob","Carol"]`
yields the DS team, `["DS Alice","Carol","Dave"]` yields none. -/
theorem detectTeamForRow_spec_witness :
    detectTeamForRow [s2l "DS Alice", s2l "DS Bob", s2l "Carol"] [dsTeam] 2 = some dsTeam ∧
    detectTeamForRow [s2l "DS Alice", s2l "Carol", s2l "Dave"] [dsTeam] 2 = none :=
  ⟨by decide,
   (detectTeamForRow_spec [s2l "DS Alice", s2l "Carol", s2l "Dave"] [dsTeam] 2).1.mpr
     (by decide)⟩

/-- C1: `placementPoints` evaluated as written.  The claim (and §4.4) says
`pointsForPlacement(place, config)` equals the `p{place}` field, so that
`totalPoints(1,5) = 15` and `totalPoints(3,2) = 7` under the default config;
but the code indexes the scoring object with the numeric `place`, whose
string form is not among the object's keys `killPoints, p1 … p9plus`, so the
placement contribution is 0 for every place and the totals are 5, 2 and 0. -/
theorem placementPoints_indexes_numeric_key :
    placementPoints 1 defaultScoring = 0 ∧
    placementPoints 3 defaultScoring = 0 ∧
    totalPoints 1 (.fin 5) defaultScoring = 5 ∧
    totalPoints 3 (.fin 2) defaultScoring = 2 ∧
    totalPoints 10 (.fin 0) defaultScoring = 0 := by
  decide

/-- C7 counterexample: the default config has non-negative fields, yet
`totalPoints(1, -5)` is negative — `Number(kills) || 0` lets negative kill
counts through. -/
theorem totalPoints_negative_kills :
    scoringNonneg defaultScoring ∧ totalPoints 1 (.fin (-5)) defaultScoring < 0 := by
  decide

set_option maxHeartbeats 1000000 in
theorem scoringGet_nonneg (s : Scoring) (key : List Char)
    (hs : scoringNonneg s) : 0 ≤ (scoringGet s key).getD 0 := by
  obtain ⟨h0, h1, h2, h3, h4, h5, h6, h7, h8, h9⟩ := hs
  unfold scoringGet
  split_ifs <;> simp_all

theorem placementPoints_nonneg (place : Int) (s : Scoring)
    (hs : scoringNonneg s) : 0 ≤ placementPoints place s :=
  scoringGet_nonneg s (s2l (toString place)) hs

/-- C7 (amended): a non-numeric kills argument is treated as 0, but a
negative kills value is not clamped; `totalPoints` is non-negative whenever
the config fields are non-negative and the coerced kills value is
non-negative (in particular for non-numeric kills). -/
theorem totalPoints_nonneg (place : Int) (kills : JsNum) (s : Scoring)
    (hs : scoringNonneg s) (hk : 0 ≤ jsOrZero kills) :
    0 ≤ totalPoints place kills s ∧
    totalPoints place .nonNum s = totalPoints place (.fin 0) s ∧
    totalPoints place .undef s = totalPoints place (.fin 0) s := by
  refine ⟨?_, rfl, rfl⟩
  have hp := placementPoints_nonneg place s hs
  have hkp : 0 ≤ s.killPoints := hs.1
  have := mul_nonneg hk hkp
  unfold totalPoints
  omega

/-- Witness for C7's amended theorem at place 2, 3 kills, default config. -/
theorem totalPoints_nonneg_witness :
    scoringNonneg defaultScoring ∧ 0 ≤ jsOrZero (JsNum.fin 3) ∧
    0 ≤ totalPoints 2 (.fin 3) defaultScoring :=
  ⟨by decide, by decide,
   (totalPoints_nonneg 2 (.fin 3) defaultScoring (by decide) (by decide)).1⟩

theorem clampInt_range (v : JsNum) (mn mx fb : Int)
    (h1 : mn ≤ mx) (h2 : mn ≤ fb) (h3 : fb ≤ mx) :
    mn ≤ clampInt v mn mx fb ∧ clampInt v mn mx fb ≤ mx := by
  cases v <;> simp only [clampInt] <;> (try split_ifs) <;> omega

/-- C9: the config loader is total (absent or unparsable JSON is the `none`
case), every loaded field is clamped into its range, a missing or
non-numeric field (and the all-missing and all-garbage configs) falls back
to the documented defaults, and the spec's three examples hold:
`{p1: 9999}` clamps to 200, `{killPoints: -5}` clamps to 0, and a nullish
config loads the defaults exactly. -/
theorem getScrimScoring_spec :
    (∀ cfg : Option RawScoring, scoringInRange (getScrimScoring cfg)) ∧
    getScrimScoring none = defaultScoring ∧
    getScrimScoring (some rawEmpty) = defaultScoring ∧
    getScrimScoring (some rawNonNum) = defaultScoring ∧
    getScrimScoring (some { rawEmpty with p1 := .fin 9999 }) =
      { defaultScoring with p1 := 200 } ∧
    getScrimScoring (some { rawEmpty with killPoints := .fin (-5) }) =
      { defaultScoring with killPoints := 0 } ∧
    (∀ obj : RawScoring,
      (obj.p1 = .nonNum → (getScrimScoring (some obj)).p1 = 10) ∧
      (obj.p1 = .undef → obj.places1 = .undef → (getScrimScoring (some obj)).p1 = 10) ∧
      (obj.killPoints = .nonNum → (getScrimScoring (some obj)).killPoints = 1) ∧
      (obj.killPoints = .undef → obj.kills = .undef → obj.kill_points = .undef →
        (getScrimScoring (some obj)).killPoints = 1)) := by
  refine ⟨?_, by decide, by decide, by decide, by decide, by decide, ?_⟩
  · intro cfg
    cases cfg with
    | none => exact by decide
    | some obj =>
      unfold getScrimScoring scoringInRange
      have h50 := fun v => clampInt_range v 0 50 1 (by omega) (by omega) (by omega)
      have h200 := fun v fb => clampInt_range v 0 200 fb
      refine ⟨(h50 _).1, (h50 _).2, ?_⟩
      have r1 := h200 (jsCoal obj.p1 obj.places1) 10 (by omega) (by omega) (by omega)
      have r2 := h200 (jsCoal obj.p2 obj.places2) 6 (by omega) (by omega) (by omega)
      have r3 := h200 (jsCoal obj.p3 obj.places3) 5 (by omega) (by omega) (by omega)
      have r4 := h200 (jsCoal obj.p4 obj.places4) 4 (by omega) (by omega) (by omega)
      have r5 := h200 (jsCoal obj.p5 obj.places5) 3 (by omega) (by omega) (by omega)
      have r6 := h200 (jsCoal obj.p6 obj.places6) 2 (by omega) (by omega) (by omega)
      have r7 := h200 (jsCoal obj.p7 obj.places7) 1 (by omega) (by omega) (by omega)
      have r8 := h200 (jsCoal obj.p8 obj.places8) 1 (by omega) (by omega) (by omega)
      have r9 := h200 (jsCoal obj.p9plus obj.places9plus) 0 (by omega) (by omega) (by omega)
      exact ⟨r1.1, r1.2, r2.1, r2.2, r3.1, r3.2, r4.1, r4.2, r5.1, r5.2,
        r6.1, r6.2, r7.1, r7.2, r8.1, r8.2, r9.1, r9.2⟩
  · intro obj
    refine ⟨?_, ?_, ?_, ?_⟩
    · intro h
      simp [getScrimScoring, jsCoal, clampInt, h, defaultScoring]
    · intro h1 h2
      simp [getScrimScoring, jsCoal, clampInt, h1, h2, defaultScoring]
    · intro h
      simp [getScrimScoring, jsCoal, clampInt, h, defaultScoring]
    · intro h1 h2 h3
      simp [getScrimScoring, jsCoal, clampInt, h1, h2, h3, defaultScoring]

/-- Witness for C9 at an all-garbage config: the malformed `p1` falls back
to the default 10. -/
theorem getScrimScoring_spec_witness :
    (getScrimScoring (some rawNonNum)).p1 = 10 :=
  (getScrimScoring_spec.2.2.2.2.2.2 rawNonNum).1 (by decide)

theorem manualMapGet_some {man : List RRow} {k : Int × List Char} {x : RRow}
    (h : manualMapGet man k = some x) : x ∈ man ∧ keyOf x = k := by
  refine ⟨List.mem_reverse.1 (List.mem_of_find?_eq_some h), ?_⟩
  have := List.find?_some h
  exact of_decide_eq_true this

theorem manualMapGet_none {man : List RRow} {k : Int × List Char} :
    manualMapGet man k = none ↔ ∀ x ∈ man, keyOf x ≠ k := by
  unfold manualMapGet
  rw [List.find?_eq_none]
  constructor
  · intro h x hx
    have := h x (List.mem_reverse.2 hx)
    simpa using this
  · intro h x hx
    simpa using h x (List.mem_reverse.1 hx)

theorem mem_mergeSecondPass {r : RRow} :
    ∀ (man : List RRow) (seen : List (Int × List Char)),
      r ∈ mergeSecondPass man seen → r ∈ man ∧ keyOf r ∉ seen := by
  intro man
  induction man with
  | nil => intro seen h; simp [mergeSecondPass] at h
  | cons x rest ih =>
    intro seen h
    unfold mergeSecondPass at h
    by_cases hx : keyOf x ∈ seen
    · rw [if_pos hx] at h
      rcases ih seen h with ⟨h1, h2⟩
      exact ⟨List.mem_cons_of_mem x h1, h2⟩
    · rw [if_neg hx] at h
      rcases List.mem_cons.1 h with rfl | h'
      · exact ⟨List.mem_cons_self r rest, hx⟩
      · rcases ih (keyOf x :: seen) h' with ⟨h1, h2⟩
        exact ⟨List.mem_cons_of_mem x h1, fun hs => h2 (List.mem_cons_of_mem _ hs)⟩

theorem mergeSecondPass_mem {m : RRow} :
    ∀ (man : List RRow) (seen : List (Int × List Char)),
      (man.map keyOf).Nodup → m ∈ man → keyOf m ∉ seen →
      m ∈ mergeSecondPass man seen := by
  intro man
  induction man with
  | nil => intro seen _ h; simp at h
  | cons x rest ih =>
    intro seen hnd hm hs
    have hnd' : (rest.map keyOf).Nodup := (List.nodup_cons.1 hnd).2
    unfold mergeSecondPass
    rcases List.mem_cons.1 hm with rfl | hm'
    · rw [if_neg hs]
      exact List.mem_cons_self m _
    · by_cases hx : keyOf x ∈ seen
      · rw [if_pos hx]
        exact ih seen hnd' hm' hs
      · rw [if_neg hx]
        refine List.mem_cons_of_mem x (ih (keyOf x :: seen) hnd' hm' ?_)
        intro hmem
        rcases List.mem_cons.1 hmem with heq | hmem'
        · exact (List.nodup_cons.1 hnd).1 (heq ▸ List.mem_map_of_mem keyOf hm')
        · exact hs hmem'

/-- C3: in the merge of automated (OCR) and manual rows, a key carried by
both an automated and a manual row yields exactly the manual row (the whole
record, never a blend), and a key carried by only one kind of row keeps
that row; key sets within each input are assumed duplicate-free, as the
`(scrim_id, game, team_tag)` primary keys of the two tables guarantee. -/
theorem mergedRows_manual_wins (ocr man : List RRow)
    (hA : (ocr.map keyOf).Nodup) (hM : (man.map keyOf).Nodup) :
    (∀ a ∈ ocr, ∀ m ∈ man, keyOf a = keyOf m →
      m ∈ mergedRows ocr man ∧
        ∀ r ∈ mergedRows ocr man, keyOf r = keyOf m → r = m) ∧
    (∀ a ∈ ocr, (∀ m ∈ man, keyOf m ≠ keyOf a) →
      a ∈ mergedRows ocr man ∧
        ∀ r ∈ mergedRows ocr man, keyOf r = keyOf a → r = a) ∧
    (∀ m ∈ man, (∀ a ∈ ocr, keyOf a ≠ keyOf m) →
      m ∈ mergedRows ocr man ∧
        ∀ r ∈ mergedRows ocr man, keyOf r = keyOf m → r = m) := by
  have firstPassMem : ∀ r ∈ mergeFirstPass ocr man,
      ∃ a ∈ ocr, r = (manualMapGet man (keyOf a)).getD a := by
    intro r hr
    rcases List.mem_map.1 hr with ⟨a, ha, heq⟩
    exact ⟨a, ha, heq.symm⟩
  refine ⟨?_, ?_, ?_⟩
  · intro a ha m hm hkey
    have hget : ∃ x, manualMapGet man (keyOf a) = some x := by
      cases hx : manualMapGet man (keyOf a) with
      | none => exact absurd hkey (Ne.symm (manualMapGet_none.1 hx m hm))
      | some x => exact ⟨x, rfl⟩
    rcases hget with ⟨x, hx⟩
    rcases manualMapGet_some hx with ⟨hxm, hxk⟩
    have hxeq : x = m :=
      List.inj_on_of_nodup_map hM hxm hm (by rw [hxk, hkey])
    constructor
    · refine List.mem_append.2 (Or.inl ?_)
      have : (manualMapGet man (keyOf a)).getD a ∈ mergeFirstPass ocr man :=
        List.mem_map_of_mem _ ha
      rwa [hx, Option.getD_some, hxeq] at this
    · intro r hr hkr
      rcases List.mem_append.1 hr with hr1 | hr2
      · rcases firstPassMem r hr1 with ⟨a', ha', heq⟩
        cases hx' : manualMapGet man (keyOf a') with
        | some m' =>
          rw [hx', Option.getD_some] at heq
          rcases manualMapGet_some hx' with ⟨hm'm, _⟩
          exact heq ▸ List.inj_on_of_nodup_map hM hm'm hm (by rw [← heq, hkr])
        | none =>
          rw [hx', Option.getD_none] at heq
          subst heq
          exact absurd hkr (Ne.symm (manualMapGet_none.1 hx' m hm))
      · rcases mem_mergeSecondPass man (ocr.map keyOf) hr2 with ⟨_, hns⟩
        exact absurd (hkr ▸ hkey ▸ List.mem_map_of_mem keyOf ha) hns
  · intro a ha hno
    have hget : manualMapGet man (keyOf a) = none :=
      manualMapGet_none.2 fun x hx => hno x hx
    constructor
    · have : (manualMapGet man (keyOf a)).getD a ∈ mergeFirstPass ocr man :=
        List.mem_map_of_mem _ ha
      rw [hget, Option.getD_none] at this
      exact List.mem_append.2 (Or.inl this)
    · intro r hr hkr
      rcases List.mem_append.1 hr with hr1 | hr2
      · rcases firstPassMem r hr1 with ⟨a', ha', heq⟩
        cases hx' : manualMapGet man (keyOf a') with
        | some m' =>
          rw [hx', Option.getD_some] at heq
          rcases manualMapGet_some hx' with ⟨hm'm, _⟩
          exact absurd (heq ▸ hkr) (hno m' hm'm)
        | none =>
          rw [hx', Option.getD_none] at heq
          subst heq
          exact List.inj_on_of_nodup_map hA ha' ha hkr
      · rcases mem_mergeSecondPass man (ocr.map keyOf) hr2 with ⟨hrm, _⟩
        exact absurd hkr (hno r hrm)
  · intro m hm hno
    have hkm : keyOf m ∉ ocr.map keyOf := by
      intro hmem
      rcases List.mem_map.1 hmem with ⟨a, ha, heq⟩
      exact hno a ha heq
    constructor
    · exact List.mem_append.2 (Or.inr (mergeSecondPass_mem man (ocr.map keyOf) hM hm hkm))
    · intro r hr hkr
      rcases List.mem_append.1 hr with hr1 | hr2
      · rcases firstPassMem r hr1 with ⟨a', ha', heq⟩
        cases hx' : manualMapGet man (keyOf a') with
        | some m' =>
          rw [hx', Option.getD_some] at heq
          rcases manualMapGet_some hx' with ⟨_, hk'⟩
          exact absurd (by rw [← hkr, heq, hk']) (hno a' ha')
        | none =>
          rw [hx', Option.getD_none] at heq
          subst heq
          exact absurd hkr (hno r ha')
      · rcases mem_mergeSecondPass man (ocr.map keyOf) hr2 with ⟨hrm, _⟩
        exact List.inj_on_of_nodup_map hM hrm hm hkr

/-- Witness for C3 at the spec's example: the automated record
`(game 1, DS, place 3, kills 2, points 7)` and the manual record
`(game 1, DS, place 1, kills 0, points 10)` share their key, and the merge
keeps the manual one. -/
theorem mergedRows_manual_wins_witness :
    manDS ∈ mergedRows [autoDS] [manDS] :=
  ((mergedRows_manual_wins [autoDS] [manDS] (by decide) (by decide)).1
    autoDS (by decide) manDS (by decide) (by decide)).1

theorem lookupA_some {β : Type} {m : List (List Char × β)} {k : List Char}
    {a : β} (h : lookupA m k = some a) : ∃ p ∈ m, p.1 = k ∧ p.2 = a := by
  unfold lookupA at h
  rcases Option.map_eq_some'.1 h with ⟨q, hq, hsnd⟩
  have hpred := List.find?_some hq
  exact ⟨q, List.mem_of_find?_eq_some hq, of_decide_eq_true hpred, hsnd⟩

theorem updAssoc_keys {β : Type} (k : List Char) (f : β → β) (d : β) :
    ∀ m : List (List Char × β),
      (updAssoc k f d m).map Prod.fst =
        if k ∈ m.map Prod.fst then m.map Prod.fst else m.map Prod.fst ++ [k] := by
  intro m
  induction m with
  | nil =>
    simp only [List.map_nil]
    rw [if_neg (List.not_mem_nil k)]
    rfl
  | cons p rest ih =>
    obtain ⟨k', v⟩ := p
    unfold updAssoc
    by_cases hk : k' = k
    · rw [if_pos hk,
        if_pos (hk ▸ List.mem_map_of_mem Prod.fst (List.mem_cons_self (k', v) rest))]
      simp only [List.map_cons]
    · rw [if_neg hk]
      simp only [List.map_cons, ih]
      by_cases hmem : k ∈ rest.map Prod.fst
      · rw [if_pos hmem, if_pos (List.mem_cons_of_mem _ hmem)]
      · rw [if_neg hmem, if_neg ?_]
        · simp
        · intro hc
          rcases List.mem_cons.1 hc with heq | hc'
          · exact hk heq.symm
          · exact hmem hc'

theorem aggStep_keys (scoring : Scoring)
    (st : List (List Char × AggV) × List (List Char × List Int)) (r : RRow) :
    ((aggStep scoring st r).1).map Prod.fst = st.1.map Prod.fst ∨
    (((aggStep scoring st r).1).map Prod.fst
        = st.1.map Prod.fst ++ [trimJs r.team_tag] ∧
      trimJs r.team_tag ≠ [] ∧ trimJs r.team_tag ∉ st.1.map Prod.fst) := by
  unfold aggStep
  by_cases ht : trimJs r.team_tag = []
  · rw [if_pos ht]
    exact Or.inl rfl
  · rw [if_neg ht]
    simp only [updAssoc_keys]
    by_cases hmem : trimJs r.team_tag ∈ st.1.map Prod.fst
    · rw [if_pos hmem]
      exact Or.inl rfl
    · rw [if_neg hmem]
      exact Or.inr ⟨rfl, ht, hmem⟩

theorem agg_keys_closure (scoring : Scoring) :
    ∀ (rows : List RRow) (st : List (List Char × AggV) × List (List Char × List Int)),
      ∀ k ∈ ((rows.foldl (aggStep scoring) st).1).map Prod.fst,
        k ∈ st.1.map Prod.fst ∨ ∃ r ∈ rows, trimJs r.team_tag = k := by
  intro rows
  induction rows with
  | nil => intro st k hk; exact Or.inl hk
  | cons r rest ih =>
    intro st k hk
    rw [List.foldl_cons] at hk
    rcases ih (aggStep scoring st r) k hk with hin | ⟨r', hr', hk'⟩
    · rcases aggStep_keys scoring st r with heq | ⟨heq, _, _⟩
      · rw [heq] at hin
        exact Or.inl hin
      · rw [heq] at hin
        rcases List.mem_append.1 hin with h1 | h1
        · exact Or.inl h1
        · refine Or.inr ⟨r, List.mem_cons_self r rest, ?_⟩
          have hk1 : k = trimJs r.team_tag := by simpa using h1
          exact hk1.symm
    · exact Or.inr ⟨r', List.mem_cons_of_mem r hr', hk'⟩

theorem agg_keys_nodup (scoring : Scoring) :
    ∀ (rows : List RRow) (st : List (List Char × AggV) × List (List Char × List Int)),
      (st.1.map Prod.fst).Nodup →
      (((rows.foldl (aggStep scoring) st).1).map Prod.fst).Nodup := by
  intro rows
  induction rows with
  | nil => intro st h; exact h
  | cons r rest ih =>
    intro st h
    rw [List.foldl_cons]
    refine ih (aggStep scoring st r) ?_
    rcases aggStep_keys scoring st r with heq | ⟨heq, _, hni⟩
    · rw [heq]; exact h
    · rw [heq]
      rw [List.nodup_append]
      exact ⟨h, List.nodup_singleton _, fun a ha hb => by
        simp only [List.mem_singleton] at hb
        exact hni (hb ▸ ha)⟩

theorem aggFinal_keys (scoring : Scoring) (rows : List RRow) :
    (aggFinal scoring rows).map Prod.fst = ((aggregate scoring rows).1).map Prod.fst := by
  unfold aggFinal
  rw [List.map_map]
  rfl

theorem aggFinal_lookup_none (scoring : Scoring) (merged : List RRow)
    (tag : List Char) (h : ∀ r ∈ merged, trimJs r.team_tag ≠ tag) :
    lookupA (aggFinal scoring merged) tag = none := by
  cases hl : lookupA (aggFinal scoring merged) tag with
  | none => rfl
  | some a =>
    rcases lookupA_some hl with ⟨p, hp, hk, _⟩
    have hkey : tag ∈ (aggFinal scoring merged).map Prod.fst :=
      hk ▸ List.mem_map_of_mem Prod.fst hp
    rw [aggFinal_keys] at hkey
    rcases agg_keys_closure scoring merged ([], []) tag hkey with habs | ⟨r, hr, hr'⟩
    · simp at habs
    · exact absurd hr' (h r hr)

/-- C4: the leaderboard has one entry for every registered team plus one
synthetic `(not registered)` entry per aggregated tag that matches no
registered team (the aggregated tags are duplicate free); a registered team
none of whose merged rows exist gets a zero-filled entry
(`points = kills = games = 0`). -/
theorem buildLeaderboard_spec (scoring : Scoring) (merged : List RRow)
    (teams : List TeamReg) :
    (buildLeaderboard scoring merged teams).length
      = teams.length + (unregEntries teams (aggFinal scoring merged)).length ∧
    ((aggFinal scoring merged).map Prod.fst).Nodup ∧
    (∀ t ∈ teams, ∃ e ∈ buildLeaderboard scoring merged teams,
      e.slot = some t.slot ∧ e.team_tag = trimJs t.team_tag ∧
      e.team_name = t.team_name ∧
      ((∀ r ∈ merged, trimJs r.team_tag ≠ trimJs t.team_tag) →
        e.points = 0 ∧ e.kills = 0 ∧ e.games = 0)) ∧
    (∀ p ∈ aggFinal scoring merged, ¬ regHas teams p.1 = true →
      ∃ e ∈ buildLeaderboard scoring merged teams,
        e.team_tag = p.1 ∧ e.team_name = notRegisteredName ∧
        e.points = p.2.points ∧ e.kills = p.2.kills) := by
  have hperm := List.perm_insertionSort lbOrder
    (teams.map (entryForTeam (aggFinal scoring merged)) ++
     unregEntries teams (aggFinal scoring merged))
  refine ⟨?_, ?_, ?_, ?_⟩
  · rw [buildLeaderboard, hperm.length_eq, List.length_append, List.length_map]
  · rw [aggFinal_keys]
    exact agg_keys_nodup scoring merged ([], []) (by simp)
  · intro t ht
    refine ⟨entryForTeam (aggFinal scoring merged) t, ?_, ?_⟩
    · rw [buildLeaderboard]
      exact hperm.mem_iff.2 (List.mem_append.2 (Or.inl (List.mem_map_of_mem _ ht)))
    · refine ⟨?_, ?_, ?_, ?_⟩
      · unfold entryForTeam
        cases lookupA (aggFinal scoring merged) (trimJs t.team_tag) <;> rfl
      · unfold entryForTeam
        cases lookupA (aggFinal scoring merged) (trimJs t.team_tag) <;> rfl
      · unfold entryForTeam
        cases lookupA (aggFinal scoring merged) (trimJs t.team_tag) <;> rfl
      · intro hnone
        have h0 := aggFinal_lookup_none scoring merged (trimJs t.team_tag) hnone
        unfold entryForTeam
        rw [h0]
        exact ⟨rfl, rfl, rfl⟩
  · intro p hp hreg
    refine ⟨⟨none, p.1, notRegisteredName, p.2.games, p.2.placement_points,
      p.2.kills, p.2.kill_points, p.2.points⟩, ?_, rfl, rfl, rfl, rfl⟩
    rw [buildLeaderboard]
    refine hperm.mem_iff.2 (List.mem_append.2 (Or.inr ?_))
    unfold unregEntries
    refine List.mem_map_of_mem _ (List.mem_filter.2 ⟨hp, ?_⟩)
    have hfalse : regHas teams p.1 = false := by
      cases hb : regHas teams p.1
      · rfl
      · exact absurd hb hreg
    simp [hfalse]

/-- Witness for C4 at the spec's example: three registered teams, results
for only one, give a three-entry leaderboard whose unmatched teams are
zero-filled. -/
theorem buildLeaderboard_spec_witness :
    (buildLeaderboard defaultScoring [rowA] [tA, tB, tC]).length = 3 ∧
    ∃ e ∈ buildLeaderboard defaultScoring [rowA] [tA, tB, tC],
      e.slot = some 2 ∧ e.points = 0 ∧ e.kills = 0 ∧ e.games = 0 := by
  constructor
  · have h := (buildLeaderboard_spec defaultScoring [rowA] [tA, tB, tC]).1
    rw [h]
    decide
  · obtain ⟨e, he, h1, _, _, h4⟩ :=
      (buildLeaderboard_spec defaultScoring [rowA] [tA, tB, tC]).2.2.1 tB (by decide)
    obtain ⟨hp, hk, hg⟩ := h4 (by decide)
    exact ⟨e, he, h1, hp, hk, hg⟩

/-- C2 counterexample: the same good screenshot alone writes one row and
reports the count, but a batch in which the first screenshot's OCR call
throws ends in the handler-level catch (`Except.error`): no count reply,
and the good screenshot after the failure is never processed. -/
theorem matchDone_aborts_on_failure :
    matchDoneLoop 1 1 [dsTeam] defaultScoring [.ok goodShot] 0 = .ok 1 ∧
    matchDoneLoop 1 1 [dsTeam] defaultScoring [.error 0, .ok goodShot] 0 = .error 0 :=
  ⟨rfl, rfl⟩

/-- C2 (amended): the `!match done` loop has no per-screenshot catch: an
error-free batch reports the total row count, while a batch with a failing
screenshot propagates that first failure to the handler-level catch —
whatever screenshots follow it are never processed and no count is
reported. -/
theorem matchDoneLoop_spec (scrimId game : Int) (teams : List DTeam)
    (scoring : Scoring) :
    (∀ (texts : List (List Char)) (saved : Nat),
      matchDoneLoop scrimId game teams scoring (texts.map .ok) saved =
        .ok (saved + (texts.map (savedRowsForText scrimId game teams scoring)).sum)) ∧
    (∀ (texts : List (List Char)) (e : Nat)
        (rest : List (Except Nat (List Char))) (saved : Nat),
      matchDoneLoop scrimId game teams scoring
        (texts.map .ok ++ .error e :: rest) saved = .error e) := by
  constructor
  · intro texts
    induction texts with
    | nil => intro saved; simp [matchDoneLoop]
    | cons t ts ih =>
      intro saved
      simp only [List.map_cons, matchDoneLoop, ih, List.sum_cons]
      congr 1
      omega
  · intro texts
    induction texts with
    | nil => intro e rest saved; rfl
    | cons t ts ih =>
      intro e rest saved
      simpa [matchDoneLoop] using ih e rest (saved + savedRowsForText scrimId game teams scoring t)

theorem validTags_iff (teams : List TeamReg) (tag : List Char) :
    tag ∈ validTagsOf teams ↔
      tag ≠ [] ∧ ∃ t ∈ teams, trimJs t.team_tag = tag := by
  unfold validTagsOf
  rw [List.mem_filter]
  constructor
  · rintro ⟨hmem, hne⟩
    rcases List.mem_map.1 hmem with ⟨t, ht, htag⟩
    exact ⟨of_decide_eq_true hne, t, ht, htag⟩
  · rintro ⟨hne, t, ht, htag⟩
    exact ⟨htag ▸ List.mem_map_of_mem _ ht, decide_eq_true hne⟩

theorem mem_upsertManual {r x : RRow} {m : List RRow}
    (h : r ∈ upsertManual m x) : r ∈ m ∨ r = x := by
  unfold upsertManual at h
  by_cases hany : (m.any fun y =>
      decide ((y.scrim_id, y.game, y.team_tag) = (x.scrim_id, x.game, x.team_tag))) = true
  · rw [if_pos hany] at h
    rcases List.mem_map.1 h with ⟨y, hy, heq⟩
    by_cases hc : (y.scrim_id, y.game, y.team_tag) = (x.scrim_id, x.game, x.team_tag)
    · rw [if_pos hc] at heq
      exact Or.inr heq.symm
    · rw [if_neg hc] at heq
      exact Or.inl (heq ▸ hy)
  · rw [if_neg hany] at h
    rcases List.mem_append.1 h with h' | h'
    · exact Or.inl h'
    · exact Or.inr (List.mem_singleton.1 h')

theorem foldl_upsertManual_mem :
    ∀ (rows : List RRow) (init : List RRow) (r : RRow),
      r ∈ rows.foldl upsertManual init → r ∈ init ∨ r ∈ rows := by
  intro rows
  induction rows with
  | nil => intro init r h; exact Or.inl h
  | cons x rest ih =>
    intro init r h
    rw [List.foldl_cons] at h
    rcases ih (upsertManual init x) r h with h' | h'
    · rcases mem_upsertManual h' with h'' | h''
      · exact Or.inl h''
      · exact Or.inr (h'' ▸ List.mem_cons_self x rest)
    · exact Or.inr (List.mem_cons_of_mem x h')

theorem foldl_upsertManual_preserved :
    ∀ (rows : List RRow) (init : List RRow) (r : RRow), r ∈ init →
      (∀ x ∈ rows, ¬ (r.scrim_id = x.scrim_id ∧ r.game = x.game)) →
      r ∈ rows.foldl upsertManual init := by
  intro rows
  induction rows with
  | nil => intro init r h _; exact h
  | cons x rest ih =>
    intro init r h hne
    rw [List.foldl_cons]
    refine ih (upsertManual init x) r ?_ fun y hy => hne y (List.mem_cons_of_mem x hy)
    unfold upsertManual
    by_cases hany : (init.any fun y =>
        decide ((y.scrim_id, y.game, y.team_tag) = (x.scrim_id, x.game, x.team_tag))) = true
    · rw [if_pos hany]
      refine List.mem_map.2 ⟨r, h, ?_⟩
      rw [if_neg]
      intro hc
      exact hne x (List.mem_cons_self x rest)
        ⟨congrArg Prod.fst hc, congrArg Prod.fst (congrArg Prod.snd hc)⟩
    · rw [if_neg hany]
      exact List.mem_append_left _ h

theorem manualSaveRows_fixed (scrimId gameIdx : Int) (teams : List TeamReg)
    (scoring : Scoring) (teamField : Nat → Option (List Char))
    (killsField : Nat → JsNum) :
    ∀ r ∈ manualSaveRows scrimId gameIdx teams scoring teamField killsField,
      r.scrim_id = scrimId ∧ r.game = gameIdx := by
  intro r hr
  rcases List.mem_filterMap.1 hr with ⟨a, _, hf⟩
  by_cases c1 : trimJs ((teamField a).getD []) = []
  · rw [if_pos c1] at hf
    exact absurd hf (by simp)
  · by_cases c2 : trimJs ((teamField a).getD []) ∉ validTagsOf teams
    · rw [if_neg c1, if_pos c2] at hf
      exact absurd hf (by simp)
    · rw [if_neg c1, if_neg c2] at hf
      rw [← Option.some_inj.1 hf]
      exact ⟨rfl, rfl⟩

/-- C10: a manual record is produced for a placement slot iff the submitted
tag is non-empty after trimming and equals the trimmed tag of a registered
team (an unmatched tag is skipped silently); every produced row belongs to
this `(scrim, game)`; after the save, rows of this `(scrim, game)` in the
table can only be newly produced ones (the old ones were deleted first),
while rows of other games survive. -/
theorem manualSave_spec (scrimId gameIdx : Int) (teams : List TeamReg)
    (scoring : Scoring) (teamField : Nat → Option (List Char))
    (killsField : Nat → JsNum) (old : List RRow) :
    (∀ place : Nat, 1 ≤ place → place ≤ 20 →
      ((∃ r ∈ manualSaveRows scrimId gameIdx teams scoring teamField killsField,
          r.place = (place : Int)) ↔
        (trimJs ((teamField place).getD []) ≠ [] ∧
          ∃ t ∈ teams, trimJs t.team_tag = trimJs ((teamField place).getD [])))) ∧
    (∀ r ∈ manualSaveRows scrimId gameIdx teams scoring teamField killsField,
      r.scrim_id = scrimId ∧ r.game = gameIdx) ∧
    (∀ r ∈ saveGameManual old scrimId gameIdx teams scoring teamField killsField,
      r.scrim_id = scrimId → r.game = gameIdx →
        r ∈ manualSaveRows scrimId gameIdx teams scoring teamField killsField) ∧
    (∀ r ∈ old, ¬ (r.scrim_id = scrimId ∧ r.game = gameIdx) →
      r ∈ saveGameManual old scrimId gameIdx teams scoring teamField killsField) := by
  refine ⟨?_, manualSaveRows_fixed scrimId gameIdx teams scoring teamField killsField, ?_, ?_⟩
  · intro place hp1 hp2
    constructor
    · rintro ⟨r, hr, hplace⟩
      rcases List.mem_filterMap.1 hr with ⟨a, _, hf⟩
      by_cases c1 : trimJs ((teamField a).getD []) = []
      · rw [if_pos c1] at hf
        exact absurd hf (by simp)
      · by_cases c2 : trimJs ((teamField a).getD []) ∉ validTagsOf teams
        · rw [if_neg c1, if_pos c2] at hf
          exact absurd hf (by simp)
        · rw [if_neg c1, if_neg c2] at hf
          have hra := Option.some_inj.1 hf
          have haplace : r.place = (a : Int) := by rw [← hra]
          have hap : a = place := by
            have := haplace ▸ hplace
            exact_mod_cast this
          subst hap
          rcases (validTags_iff teams _).1 (not_not.1 c2) with ⟨hne, t, ht, htag⟩
          exact ⟨c1, t, ht, htag⟩
    · rintro ⟨hne, t, ht, htag⟩
      have hmem : trimJs ((teamField place).getD []) ∈ validTagsOf teams :=
        (validTags_iff teams _).2 ⟨hne, t, ht, htag⟩
      refine ⟨⟨scrimId, gameIdx, trimJs ((teamField place).getD []), (place : Int),
        max 0 (jsOrZero (killsField place)),
        placementPoints (place : Int) scoring +
          max 0 (jsOrZero (killsField place)) * scoring.killPoints⟩,
        List.mem_filterMap.2 ⟨place, ?_, ?_⟩, rfl⟩
      · exact List.mem_range'_1.2 ⟨hp1, by omega⟩
      · rw [if_neg hne, if_neg (not_not_intro hmem)]
  · intro r hr hscrim hgame
    rcases foldl_upsertManual_mem _ _ r hr with h' | h'
    · have := (List.mem_filter.1 h').2
      simp only [Bool.not_eq_true', decide_eq_false_iff_not] at this
      exact absurd ⟨hscrim, hgame⟩ this
    · exact h'
  · intro r hr hne
    refine foldl_upsertManual_preserved _ _ r ?_ ?_
    · refine List.mem_filter.2 ⟨hr, ?_⟩
      simp only [Bool.not_eq_true', decide_eq_false_iff_not]
      exact hne
    · intro x hx hcontra
      rcases manualSaveRows_fixed scrimId gameIdx teams scoring teamField killsField x hx
        with ⟨hxs, hxg⟩
      exact hne ⟨hcontra.1.trans hxs, hcontra.2.trans hxg⟩

/-- Witness for C10: with registered teams A, B, C, submitting tag `B` for
place 1 and the unregistered tag `ZZ` for place 2 yields a row for place 1
and none for place 2. -/
theorem manualSave_spec_witness :
    (∃ r ∈ manualSaveRows 1 2 [tA, tB, tC] defaultScoring exTeamField
        (fun _ => JsNum.fin 3), r.place = (1 : Int)) ∧
    ¬ (∃ r ∈ manualSaveRows 1 2 [tA, tB, tC] defaultScoring exTeamField
        (fun _ => JsNum.fin 3), r.place = (2 : Int)) := by
  constructor
  · exact ((manualSave_spec 1 2 [tA, tB, tC] defaultScoring exTeamField
      (fun _ => JsNum.fin 3) []).1 1 (by decide) (by decide)).mpr
      ⟨by decide, tB, by decide, by decide⟩
  · intro h
    have hmp := ((manualSave_spec 1 2 [tA, tB, tC] defaultScoring exTeamField
      (fun _ => JsNum.fin 3) []).1 2 (by decide) (by decide)).mp h
    revert hmp
    decide
